import Mathlib

/-!
Verification development for the orchestria repository.

This file gives a shallow embedding of the parts of the source relevant to
the conversational agent loop, the tool-call grammar, and the tool process
runner, and proves (or refutes) the frozen specification claims about them.

Source files embedded:
  * `src/orchestria/tool/tool.py`   — `Tool.run` argument sanitization and
    `Tool._run_command` output capture / trailing-JSON extraction;
  * `src/orchestria/agent/agent.py` — `Agent.start_chat` dispatch, the
    bracket tool-call regex, `_start_ollama_chat`, `_start_anthropic_chat`,
    and `_start_ollama_chat_with_tools`.

Python strings are modelled as Lean `String` (lists of characters);
Python exceptions as an explicit `Except` error type; the external world
(operator input, the model backend, a tool subprocess) as oracle parameters.
-/

namespace Orchestria

/-! ## Python string primitives used by the source -/

/-- The whitespace characters recognised by Python's `str.strip()` (the
`str.isspace` set), by code point: `09-0D`, `1C-20`, `85`, `A0`, `1680`,
`2000-200A`, `2028`, `2029`, `202F`, `205F`, `3000`. -/
def pyIsSpace (c : Char) : Bool :=
  let n := c.toNat
  (9 ≤ n ∧ n ≤ 13) || (28 ≤ n ∧ n ≤ 32) || n = 133 || n = 160 || n = 5760 ||
  (8192 ≤ n ∧ n ≤ 8202) || n = 8232 || n = 8233 || n = 8239 || n = 8287 || n = 12288

/-- Python `str.strip()` with no arguments (ASCII whitespace). -/
def pyStrip (s : String) : String :=
  ⟨((s.data.dropWhile pyIsSpace).reverse.dropWhile pyIsSpace).reverse⟩

/-- Python slicing `s[i:]`. -/
def pySlice (s : String) (i : Nat) : String :=
  ⟨s.data.drop i⟩

/-- The line-boundary characters recognised by Python `str.splitlines()`. -/
def isLineBreak (c : Char) : Bool :=
  c = '\n' || c = '\r' || c = '\x0b' || c = '\x0c' ||
  c = '\x1c' || c = '\x1d' || c = '\x1e' || c = '\x85' ||
  c = '\u2028' || c = '\u2029'

/-- Worker for `splitLinesPy`: `acc` is the current (partial) line and the
first argument records whether the previous character was a `'\r'`, in
which case an immediately following `'\n'` belongs to the same boundary
(`'\r\n'` counts as a single line break). -/
def slGo : Bool → List Char → List Char → List String
  | _, [], acc => if acc = [] then [] else [⟨acc⟩]
  | afterCR, c :: rest, acc =>
    if afterCR ∧ c = '\n' then slGo false rest acc
    else if c = '\r' then (⟨acc⟩ : String) :: slGo true rest []
    else if isLineBreak c then (⟨acc⟩ : String) :: slGo false rest []
    else slGo false rest (acc ++ [c])

/-- Python `str.splitlines()`:
`""` ↦ `[]`, a trailing line break produces no trailing empty line. -/
def splitLinesPy (s : String) : List String :=
  slGo false s.data []

/-! ## JSON values and `json.loads`

`Tool._run_command` locates the trailing structured payload of the tool's
output with `json.loads`.  We embed the Python `json` module's default
`loads` as a recursive-descent recogniser.  Numbers are kept as their
literal text (Python would convert them to `int`/`float`; no claim compares
numerically distinct literals for equality).  Objects are kept as ordered
key/value lists (Python builds a `dict`; no claim involves duplicate keys).
`\uXXXX` escapes are mapped through `Char.ofNat` (surrogate pairing, which
Python performs, is not modelled; no claim involves surrogates). -/

inductive JValue where
  | null
  | bool (b : Bool)
  | num (lit : String)
  | str (s : String)
  | arr (elems : List JValue)
  | obj (members : List (String × JValue))

/-- The whitespace skipped by the `json` module between tokens. -/
def jsonWs (c : Char) : Bool :=
  c = ' ' || c = '\t' || c = '\n' || c = '\r'

def skipWs (cs : List Char) : List Char :=
  cs.dropWhile jsonWs

/-- The value of one hexadecimal digit (`0-9`, `a-f`, `A-F`), by its
character code. -/
def hexVal (c : Char) : Option Nat :=
  let n := c.toNat
  if 48 ≤ n ∧ n ≤ 57 then some (n - 48)
  else if 97 ≤ n ∧ n ≤ 102 then some (n - 87)
  else if 65 ≤ n ∧ n ≤ 70 then some (n - 55)
  else none

/-- Single-character escapes accepted inside JSON strings. -/
def escChar (c : Char) : Option Char :=
  if c = '"' then some '"'
  else if c = '\\' then some '\\'
  else if c = '/' then some '/'
  else if c = 'b' then some '\x08'
  else if c = 'f' then some '\x0c'
  else if c = 'n' then some '\n'
  else if c = 'r' then some '\r'
  else if c = 't' then some '\t'
  else none

/-- Parse the body of a JSON string (after the opening quote), returning the
decoded characters and the remainder after the closing quote.  Unescaped
control characters below `0x20` are rejected (Python `strict=True`). -/
def parseStringBody : List Char → Option (List Char × List Char)
  | '"' :: rest => some ([], rest)
  | '\\' :: 'u' :: h1 :: h2 :: h3 :: h4 :: rest => do
    let d1 ← hexVal h1
    let d2 ← hexVal h2
    let d3 ← hexVal h3
    let d4 ← hexVal h4
    let (s, r) ← parseStringBody rest
    some (Char.ofNat (((d1 * 16 + d2) * 16 + d3) * 16 + d4) :: s, r)
  | '\\' :: e :: rest => do
    let c ← escChar e
    let (s, r) ← parseStringBody rest
    some (c :: s, r)
  | c :: rest =>
    if c.toNat < 0x20 then none
    else (parseStringBody rest).map fun (s, r) => (c :: s, r)
  | [] => none

/-- The optional fraction part `(\.\d+)?` of a JSON number.  If the dot is
not followed by a digit the group does not participate in the match. -/
def lexFrac : List Char → List Char × List Char
  | '.' :: r =>
    let ds := r.takeWhile Char.isDigit
    if ds = [] then ([], '.' :: r) else ('.' :: ds, r.drop ds.length)
  | cs => ([], cs)

/-- The optional exponent part `([eE][-+]?\d+)?` of a JSON number. -/
def lexExp (cs : List Char) : List Char × List Char :=
  match cs with
  | e :: r =>
    if e = 'e' || e = 'E' then
      let (sg, r1) := match r with
        | '+' :: r' => (['+'], r')
        | '-' :: r' => (['-'], r')
        | _ => (([] : List Char), r)
      let ds := r1.takeWhile Char.isDigit
      if ds = [] then ([], cs) else (e :: (sg ++ ds), r1.drop ds.length)
    else ([], cs)
  | [] => ([], cs)

/-- Lex a JSON number literal `-?(0|[1-9]\d*)(\.\d+)?([eE][-+]?\d+)?`,
returning its text and the remainder. -/
def lexNumber (cs : List Char) : Option (List Char × List Char) :=
  let (sign, cs1) := match cs with
    | '-' :: r => ((['-'] : List Char), r)
    | _ => ([], cs)
  match cs1 with
  | '0' :: r =>
    let (fr, r1) := lexFrac r
    let (ex, r2) := lexExp r1
    some (sign ++ '0' :: (fr ++ ex), r2)
  | c :: r =>
    if c.isDigit && c ≠ '0' then
      let ds := r.takeWhile Char.isDigit
      let (fr, r1) := lexFrac (r.drop ds.length)
      let (ex, r2) := lexExp r1
      some (sign ++ c :: (ds ++ (fr ++ ex)), r2)
    else none
  | [] => none

/-- If the keyword `kw` is a prefix of `cs`, drop it and return the rest. -/
def stripKw (kw : String) (cs : List Char) : Option (List Char) :=
  if List.isPrefixOf kw.data cs then some (cs.drop kw.length) else none

/-- The literal tokens the `json` module's scanner accepts at a value
position: `null`, `true`, `false`, and (by default, although not strict
JSON) `NaN`, `Infinity` and `-Infinity`. -/
def atomToken (cs : List Char) : Option (JValue × List Char) :=
  ((stripKw "null" cs).map fun r => (JValue.null, r)) <|>
  ((stripKw "true" cs).map fun r => (JValue.bool true, r)) <|>
  ((stripKw "false" cs).map fun r => (JValue.bool false, r)) <|>
  ((stripKw "NaN" cs).map fun r => (JValue.num "NaN", r)) <|>
  ((stripKw "Infinity" cs).map fun r => (JValue.num "Infinity", r)) <|>
  ((stripKw "-Infinity" cs).map fun r => (JValue.num "-Infinity", r))

mutual

/-- Parse one JSON value at the head of `cs` (no leading whitespace),
returning it together with the unconsumed remainder. -/
def parseValue : Nat → List Char → Option (JValue × List Char)
  | 0, _ => none
  | fuel + 1, cs =>
    match atomToken cs with
    | some res => some res
    | none =>
      match cs with
      | '"' :: rest => (parseStringBody rest).map fun (s, r) => (.str ⟨s⟩, r)
      | '\x7b' :: rest =>
        (match skipWs rest with
         | '\x7d' :: r => some (.obj [], r)
         | cs1 => (parseObjItems fuel cs1).map fun (ms, r) => (.obj ms, r))
      | '[' :: rest =>
        (match skipWs rest with
         | ']' :: r => some (.arr [], r)
         | cs1 => (parseArrItems fuel cs1).map fun (xs, r) => (.arr xs, r))
      | _ => (lexNumber cs).map fun (lit, r) => (.num ⟨lit⟩, r)

/-- Parse the comma-separated elements of a non-empty JSON array,
consuming the closing bracket. -/
def parseArrItems : Nat → List Char → Option (List JValue × List Char)
  | 0, _ => none
  | fuel + 1, cs => do
    let (v, r) ← parseValue fuel cs
    match skipWs r with
    | ',' :: r2 => (parseArrItems fuel (skipWs r2)).map fun (xs, r3) => (v :: xs, r3)
    | ']' :: r2 => some ([v], r2)
    | _ => none

/-- Parse the comma-separated members of a non-empty JSON object,
consuming the closing brace. -/
def parseObjItems : Nat → List Char → Option (List (String × JValue) × List Char)
  | 0, _ => none
  | fuel + 1, cs =>
    match cs with
    | '"' :: rest => do
      let (k, r) ← parseStringBody rest
      match skipWs r with
      | ':' :: r2 => do
        let (v, r3) ← parseValue fuel (skipWs r2)
        match skipWs r3 with
        | ',' :: r4 =>
          (parseObjItems fuel (skipWs r4)).map fun (ms, r5) => ((⟨k⟩, v) :: ms, r5)
        | '\x7d' :: r4 => some ([(⟨k⟩, v)], r4)
        | _ => none
      | _ => none
    | _ => none

end

/-- Embedding of Python `json.loads`: skip surrounding whitespace, parse one
value, and reject trailing data. -/
def jsonLoads (s : String) : Option JValue :=
  let cs := skipWs s.data
  match parseValue (2 * cs.length + 2) cs with
  | some (v, rest) => if skipWs rest = [] then some v else none
  | none => none

/-! ## Python exceptions raised by the embedded code paths -/

inductive PyExc where
  /-- `IndexError`: `[...][0]` on an empty list, or `lines[-1]` on `[]`. -/
  | indexError
  /-- `ValueError(msg)`. -/
  | valueError (msg : String)
  /-- `AssertionError` from a failing `assert`. -/
  | assertionError
  /-- `NotImplementedError`. -/
  | notImplementedError
  deriving Repr, DecidableEq

/-! ## Tool Process Runner (`src/orchestria/tool/tool.py`)

`Tool.run` (tool.py:97-110): sanitizes the argument string, then spawns the
process.  `Tool._run_command` (tool.py:112-167): joins the process-wait and
the two stream tasks, then extracts a trailing JSON payload from the last
line of the captured output. -/

/-- Worker for `re.sub(r"(?<!\\)'", '"', args)` (tool.py:102): each single
quote whose immediately preceding character in the *original* string is not
a backslash is replaced by a double quote.  `prev` is the original previous
character (`none` at the start of the string, where the lookbehind holds). -/
def ruqGo : Option Char → List Char → List Char
  | _, [] => []
  | prev, c :: rest =>
    (if c = '\'' && prev ≠ some '\\' then '"' else c) :: ruqGo (some c) rest

/-- `args = re.sub(r"(?<!\\)'", '"', args)` (tool.py:102). -/
def replaceUnescapedQuotes (s : String) : String :=
  ⟨ruqGo none s.data⟩

/-- Worker for `.replace("\x7b", "\x7b\x7b")` (tool.py:105): double every
left brace. -/
def dblLGo : List Char → List Char
  | [] => []
  | c :: rest => if c = '\x7b' then '\x7b' :: '\x7b' :: dblLGo rest else c :: dblLGo rest

/-- Worker for `.replace("\x7d", "\x7d\x7d")` (tool.py:105): double every
right brace. -/
def dblRGo : List Char → List Char
  | [] => []
  | c :: rest => if c = '\x7d' then '\x7d' :: '\x7d' :: dblRGo rest else c :: dblRGo rest

/-- `args.replace("\x7b", "\x7b\x7b").replace("\x7d", "\x7d\x7d")`
(tool.py:105).  The first replacement introduces no right braces, so the
two sequential passes equal their composition. -/
def doubleBraces (s : String) : String :=
  ⟨dblRGo (dblLGo s.data)⟩

/-- The full argument sanitization of `Tool.run` (tool.py:102-105): first the
unescaped single quotes are turned into double quotes, then every literal
brace is doubled, unconditionally, before the process is spawned. -/
def sanitizeArgs (args : String) : String :=
  doubleBraces (replaceUnescapedQuotes args)

/-- `Tool.run` up to the spawn (tool.py:97-110): a non-Python tool raises
`NotImplementedError` before anything else; otherwise the command
`["hatch", "--data-dir", ".venv", "run", entrypoint, f"'\x7bargs\x7d'"]` is
built with the sanitized argument string quoted as its last element. -/
structure ToolRunSpec where
  language : String
  entrypoint : String

def toolRunCmd (t : ToolRunSpec) (args : String) : Except PyExc (List String) :=
  if t.language ≠ "python" then .error .notImplementedError
  else .ok ["hatch", "--data-dir", ".venv", "run", t.entrypoint,
    "'" ++ sanitizeArgs args ++ "'"]

/-- The suffix scan of `Tool._run_command` (tool.py:160-165):
`for i in range(len(last_line), -1, -1): try: return json.loads(last_line[i:])`.
`i` starts at `len(last_line)` (the empty suffix) and decreases to `0` (the
whole line); the first suffix accepted by `json.loads` is returned. -/
def scanDown (s : String) : Nat → Option JValue
  | 0 => jsonLoads (pySlice s 0)
  | i + 1 =>
    match jsonLoads (pySlice s (i + 1)) with
    | some v => some v
    | none => scanDown s i

/-- Result extraction of `Tool._run_command` (tool.py:150-167) as a function
of the captured stdout text: split it into lines, take the last line
(`lines[-1]`: an `IndexError` when there is no line at all), strip it, and
scan its suffixes; if no suffix parses, `ValueError("No JSON object found
in output")` is raised. -/
def runCommandExtract (fullOutput : String) : Except PyExc JValue :=
  let lines := splitLinesPy fullOutput
  match lines.getLast? with
  | none => .error .indexError
  | some lastLine =>
    let stripped := pyStrip lastLine
    match scanDown stripped stripped.length with
    | some v => .ok v
    | none => .error (.valueError "No JSON object found in output")

/-- Outcome of the child process spawned by `Tool._run_command`: its exit
status (awaited by `process.wait()`) and the stdout text accumulated by the
`process_output`/`print_output` tasks. -/
structure ProcOutcome where
  exitStatus : Int
  stdout : String

/-- `Tool._run_command` after the three-task join (tool.py:153-167): the
exit status is never consulted; extraction runs on whatever was printed. -/
def toolRunCommand (p : ProcOutcome) : Except PyExc JValue :=
  runCommandExtract p.stdout

/-! ## Tool-Call Grammar (`src/orchestria/agent/agent.py`)

`Agent.__init__` (agent.py:47) compiles
`re.compile(r"([a-zA-Z0-9_-]*)\[(.*)\]$", re.MULTILINE)` and
`_start_ollama_chat` applies it with `.match` (agent.py:284), which anchors
the match at position 0 of the message.  With `re.MULTILINE`, `$` matches
at the end of the string or immediately before any `'\n'`; `.` matches any
character except `'\n'`. -/

/-- The character class `[a-zA-Z0-9_-]` of the tool regex, by code point. -/
def isNameChar (c : Char) : Bool :=
  let n := c.toNat
  (97 ≤ n ∧ n ≤ 122) || (65 ≤ n ∧ n ≤ 90) || (48 ≤ n ∧ n ≤ 57) || n = 95 || n = 45

/-- Core of `self._tool_regex.match(text)`: anchored at position 0, the name
group takes the maximal run of name characters (it cannot profitably
backtrack, since no name character is `'['`), then a literal `'['` must
follow; the greedy `(.*)` group and `\]$` then force the line (up to the
next `'\n'` or the end of the string) to end in `']'`, the argument group
being that line minus the final `']'`. -/
def trmCore (cs : List Char) : Option (List Char × List Char) :=
  let n := cs.takeWhile isNameChar
  let rest := cs.drop n.length
  if rest.head? = some '[' then
    let L := rest.tail.takeWhile (fun c => c != '\n')
    if L.getLast? = some ']' then some (n, L.dropLast) else none
  else none

/-- `self._tool_regex.match(text)` returning the two captured groups. -/
def toolRegexMatch (s : String) : Option (String × String) :=
  match trmCore s.data with
  | some (n, a) => some (⟨n⟩, ⟨a⟩)
  | none => none

/-- The grammar as consumed by the loop (agent.py:284-287): the two groups
with surrounding whitespace stripped. -/
def agentToolCall (content : String) : Option (String × String) :=
  match toolRegexMatch content with
  | some (n, a) => some (pyStrip n, pyStrip a)
  | none => none

/-! ## Conversation loops (`src/orchestria/agent/agent.py`)

Messages are dictionaries `\x7b"role": ..., "content": ...\x7d`; the content
is either plain text or, for the anthropic variant, a list of blocks. -/

inductive Role where
  | system
  | user
  | assistant
  | tool
  deriving Repr, DecidableEq

/-- A block of structured message content (anthropic variant).  A tool-use
block's `"type"` field is always the string `"tool_use"` and is omitted. -/
inductive ContentBlock where
  | textBlock (text : String)
  | toolUse (id name input : String)
  | toolResult (toolUseId content : String) (isError : Bool)
  deriving Repr, DecidableEq

inductive MsgContent where
  | text (s : String)
  | blocks (bs : List ContentBlock)
  deriving Repr, DecidableEq

structure Message where
  role : Role
  content : MsgContent
  deriving Repr, DecidableEq

/-- The text content of a message, as read by
`self._tool_regex.match(messages[-1]["content"])` (agent.py:284); the
ollama loop only ever stores plain-text contents. -/
def msgText : MsgContent → String
  | .text s => s
  | .blocks _ => ""

/-- The fields of a loaded `Tool` consulted by the conversation loops. -/
structure ToolSpec where
  name : String
  description : String
  language : String
  entrypoint : String
  deriving Repr, DecidableEq

/-- The outcome of `await tool.run(...)`, rendered to the string that the
loop stores: `.ok s` models a successful call whose output prints as `s`,
`.error e` an exception rendered as `e`.  (In `_start_ollama_chat` the
stored text is `f"\x7btool_outputs\x7d"`; in `_start_anthropic_chat` it is
`json.dumps(tool_outputs)`.  Both renderings are folded into the oracle.) -/
abbrev ToolRunOracle := ToolSpec → String → Except String String

/-- Initial history of `_start_ollama_chat` (agent.py:273-279): the rendered
system prompt, when one is configured (`if self._system_prompt:`), is the
first message.  Rendering does not change emptiness; the rendered text is
taken as given. -/
def ollamaInit (systemPrompt : String) : List Message :=
  if systemPrompt = "" then [] else [⟨.system, .text systemPrompt⟩]

/-- First half of one `_start_ollama_chat` iteration (agent.py:283-311),
up to but not including the model call: if the last message is from the
assistant and the tool regex matches it, the named tool is selected by
`[t for t in self._supported_tools if t.name == tool_name][0]` — an
uncaught `IndexError` when no tool matches — and run (its `json.loads` +
`tool.run` exceptions are caught and rendered), appending a `tool` message;
otherwise the operator is prompted and a `user` message is appended. -/
def ollamaPre (tools : List ToolSpec) (toolRun : ToolRunOracle)
    (msgs : List Message) (userInput : String) : Except PyExc (List Message) :=
  match msgs.getLast? with
  | some m =>
    if m.role = .assistant then
      match agentToolCall (msgText m.content) with
      | some (toolName, toolInputs) =>
        match (tools.filter fun t => t.name == toolName).head? with
        | none => .error .indexError
        | some tool =>
          let content := match toolRun tool toolInputs with
            | .ok out => out
            | .error exc => "Something went wrong: " ++ exc
          .ok (msgs ++ [⟨.tool, .text content⟩])
      | none => .ok (msgs ++ [⟨.user, .text userInput⟩])
    else .ok (msgs ++ [⟨.user, .text userInput⟩])
  | none => .ok (msgs ++ [⟨.user, .text userInput⟩])

/-- Histories reachable in `_start_ollama_chat` (agent.py:272-328).  Phase
`0` is the top of the `while True` loop; phase `1` is the point after the
user/tool message was appended and before the streamed assistant response
is appended (agent.py:313-326 always append exactly one assistant
message).  A turn whose tool lookup raises leaves the loop, so it yields
no new reachable history. -/
inductive OllamaReach (tools : List ToolSpec) (toolRun : ToolRunOracle) :
    Nat → List Message → Prop
  | start (systemPrompt : String) :
      OllamaReach tools toolRun 0 (ollamaInit systemPrompt)
  | pre {msgs msgs' : List Message} (userInput : String) :
      OllamaReach tools toolRun 0 msgs →
      ollamaPre tools toolRun msgs userInput = .ok msgs' →
      OllamaReach tools toolRun 1 msgs'
  | asst {msgs : List Message} (response : String) :
      OllamaReach tools toolRun 1 msgs →
      OllamaReach tools toolRun 0 (msgs ++ [⟨.assistant, .text response⟩])

/-- A block of an anthropic assistant turn, as yielded by the stream
(agent.py:364-380): the final text (empty when no `TextBlock` arrived —
Python's `if text:` treats `None` and `""` alike) and the tool-use blocks. -/
structure ToolUse where
  id : String
  name : String
  input : String
  deriving Repr, DecidableEq

/-- `_start_anthropic_chat`, agent.py:348-353: prompt the operator unless
the last message is already a `user` message. -/
def anthUserStep (msgs : List Message) (userInput : String) : List Message :=
  match msgs.getLast? with
  | none => msgs ++ [⟨.user, .text userInput⟩]
  | some m => if m.role ≠ .user then msgs ++ [⟨.user, .text userInput⟩] else msgs

/-- The content blocks of the assistant message built for a turn with tool
uses (agent.py:391-410): the text block first when there was text, then one
tool-use block per streamed `ToolUseBlock`. -/
def anthAsstBlocks (text : String) (tus : List ToolUse) : List ContentBlock :=
  (if text ≠ "" then [ContentBlock.textBlock text] else []) ++
    tus.map fun tu => ContentBlock.toolUse tu.id tu.name tu.input

/-- `_start_anthropic_chat`, agent.py:385-410: text with no tool uses
appends a plain assistant message; tool uses append a block-structured
assistant message; a turn with neither appends nothing. -/
def anthAsstStep (msgs : List Message) (text : String) (tus : List ToolUse) :
    List Message :=
  if text ≠ "" ∧ tus = [] then msgs ++ [⟨.assistant, .text text⟩]
  else if tus ≠ [] then msgs ++ [⟨.assistant, .blocks (anthAsstBlocks text tus)⟩]
  else msgs

/-- One `tool_result` block (agent.py:422-434): the tool's rendered output,
or `"Something went wrong: ..."` with `is_error` set when it raised. -/
def mkToolResult (tu : ToolUse) (r : Except String String) : ContentBlock :=
  match r with
  | .ok out => .toolResult tu.id out false
  | .error exc => .toolResult tu.id ("Something went wrong: " ++ exc) true

/-- The `for tool_use in tool_uses` body (agent.py:416-434): each tool is
selected by `[t for t in self._supported_tools if t.name == tool_use.name][0]`
— an uncaught `IndexError` when no tool matches — before its (caught)
invocation; the resulting `tool_result` blocks are collected in order. -/
def anthCollectResults (tools : List ToolSpec) (toolRun : ToolRunOracle) :
    List ToolUse → Except PyExc (List ContentBlock)
  | [] => .ok []
  | tu :: rest =>
    match (tools.filter fun t => t.name == tu.name).head? with
    | none => .error .indexError
    | some tool =>
      match anthCollectResults tools toolRun rest with
      | .ok bs => .ok (mkToolResult tu (toolRun tool tu.input) :: bs)
      | .error e => .error e

/-- `_start_anthropic_chat`, agent.py:412-435: when the turn carried tool
uses, run them all and append one `user` message holding the result
blocks. -/
def anthToolStep (tools : List ToolSpec) (toolRun : ToolRunOracle)
    (msgs : List Message) (tus : List ToolUse) : Except PyExc (List Message) :=
  if tus = [] then .ok msgs
  else
    match anthCollectResults tools toolRun tus with
    | .ok bs => .ok (msgs ++ [⟨.user, .blocks bs⟩])
    | .error e => .error e

/-- The part of an anthropic iteration after the operator prompt: apply the
streamed turn `(text, tus)` to the history. -/
def anthModelTurn (tools : List ToolSpec) (toolRun : ToolRunOracle)
    (msgs : List Message) (text : String) (tus : List ToolUse) :
    Except PyExc (List Message) :=
  anthToolStep tools toolRun (anthAsstStep msgs text tus) tus

/-- Histories reachable in `_start_anthropic_chat` (agent.py:330-435).
Phase `0` is the top of the `while True` loop (the history starts empty:
the system prompt is passed as a request argument, not a message); phase
`1` is the point just after the conditional operator prompt. -/
inductive AnthReach (tools : List ToolSpec) (toolRun : ToolRunOracle) :
    Nat → List Message → Prop
  | start : AnthReach tools toolRun 0 []
  | user {msgs : List Message} (userInput : String) :
      AnthReach tools toolRun 0 msgs →
      AnthReach tools toolRun 1 (anthUserStep msgs userInput)
  | turn {msgs msgs' : List Message} (text : String) (tus : List ToolUse) :
      AnthReach tools toolRun 1 msgs →
      anthModelTurn tools toolRun msgs text tus = .ok msgs' →
      AnthReach tools toolRun 0 msgs'

/-- The role-sequencing invariant claimed for the history: never two
consecutive `assistant` messages, and never two consecutive `user`/`tool`
messages. -/
def consecOk (a b : Role) : Bool :=
  !(a == .assistant && b == .assistant) &&
  !((a == .user || a == .tool) && (b == .user || b == .tool))

def alternOk : List Message → Bool
  | [] => true
  | [_] => true
  | m₁ :: m₂ :: rest => consecOk m₁.role m₂.role && alternOk (m₂ :: rest)

/-! ## `Agent.start_chat` dispatch and `_start_ollama_chat_with_tools` -/

/-- The chat routines an agent session can run.  `ollamaBracket` stands for
the method `_start_ollama_chat` (the bracket-grammar loop), which exists in
the source but is called from nowhere. -/
inductive ChatRoutine where
  | ollamaWithTools
  | anthropicChat
  | ollamaBracket
  deriving Repr, DecidableEq

/-- `Agent.start_chat` (agent.py:139-145): `"ollama"` dispatches to
`_start_ollama_chat_with_tools`, `"anthropic"` to `_start_anthropic_chat`,
anything else raises `NotImplementedError`.  No provider dispatches to
`_start_ollama_chat`. -/
def startChatDispatch (provider : String) : Except PyExc ChatRoutine :=
  if provider = "ollama" then .ok .ollamaWithTools
  else if provider = "anthropic" then .ok .anthropicChat
  else .error .notImplementedError

/-- One iteration of `_start_ollama_chat_with_tools` (agent.py:167-198):
the operator is prompted unless the last message is a `user`/`tool`
message, the model is called and its response printed (agent.py:186-187),
and then the unconditional `assert False` (agent.py:198) raises
`AssertionError`; the built history and the response are discarded. -/
def ollamaWithToolsTurn (msgs : List Message) (userInput response : String) :
    Except PyExc (List Message) :=
  let _msgs1 : List Message :=
    match msgs.getLast? with
    | none => msgs ++ [⟨.user, .text userInput⟩]
    | some m =>
      if m.role ≠ .user ∧ m.role ≠ .tool then msgs ++ [⟨.user, .text userInput⟩]
      else msgs
  let _printed := response
  .error .assertionError

/-! ## Definitions taken from the specification's wording

These do not embed source code; they state, for comparison, what the
specification's sentences describe. -/

/-- The suffix scan **as the specification describes it**: "testing every
suffix from longest to shortest (i.e., starting at position 0 and advancing
one character at a time from the start of the line)", returning the first
suffix accepted by `json.loads`. -/
def specLongestFirstScan (s : String) : Option JValue :=
  ((List.range (s.length + 1)).filterMap fun i => jsonLoads (pySlice s i)).head?

/-- The grammar **as the specification describes it** for multi-line text:
"Only the last such line in multi-line text is authoritative" — the
bracket-form match of the last matching line. -/
def specLastLineMatch (s : String) : Option (String × String) :=
  ((splitLinesPy s).filterMap agentToolCall).getLast?

/-- `true` when no suffix of `s` (the whole line included) parses as JSON. -/
def allSuffixesFail (s : String) : Bool :=
  (List.range (s.length + 1)).all fun i => (jsonLoads (pySlice s i)).isNone

/-! ## ReAct dialect grammar (modelled from the spec) -/

/-- Modelled from the spec: the repository's `src/` contains no ReAct
grammar (only the bracket regex exists in `agent.py`); the spec describes
it as a second dialect "`Action: <name>[<argument>]` lines and a terminal
`Final Answer: <text>` line".  A line reporting the final answer starts
with `Final Answer:`. -/
def isFinalAnswerLine (l : String) : Bool :=
  List.isPrefixOf "Final Answer:".data l.data

/-- Modelled from the spec: an `Action: <name>[<argument>]` line — the text
after `Action:` is, up to surrounding whitespace, of the bracket form. -/
def reactActionMatch (l : String) : Option (String × String) :=
  if List.isPrefixOf "Action:".data l.data then
    agentToolCall (pyStrip ⟨l.data.drop "Action:".length⟩)
  else none

/-- Modelled from the spec: the ReAct-dialect grammar.  "The grammar reports
'no tool call' once a `Final Answer:` line is present anywhere in the
message, regardless of any `Action:` lines that precede it; otherwise it
returns the *last* `Action:` match in the message." -/
def reactParse (text : String) : Option (String × String) :=
  let ls := splitLinesPy text
  if ls.any isFinalAnswerLine then none
  else (ls.filterMap reactActionMatch).getLast?

/-- Join lines with `'\n'`; the right inverse of `splitLinesPy` on
newline-free lines. -/
def joinLines : List String → String
  | [] => ""
  | [l] => l
  | l :: rest => l ++ "\n" ++ joinLines rest

/-- The first line of a string (everything before the first `'\n'`). -/
def firstLinePy (s : String) : String :=
  ⟨s.data.takeWhile (fun c => c != '\n')⟩

/-! # Lemmas -/

/-! ## Generic list helpers -/

theorem takeWhile_all_eq {p : Char → Bool} {l : List Char}
    (h : ∀ c ∈ l, p c = true) : l.takeWhile p = l :=
  List.takeWhile_eq_self_iff.mpr h

theorem takeWhile_append_all {p : Char → Bool} {l : List Char} (r : List Char)
    (h : ∀ c ∈ l, p c = true) : (l ++ r).takeWhile p = l ++ r.takeWhile p := by
  induction l with
  | nil => simp
  | cons c t ih =>
    have hc : p c = true := h c (List.mem_cons_self c t)
    simp only [List.cons_append, List.takeWhile_cons, hc, if_true]
    rw [ih fun x hx => h x (List.mem_cons_of_mem c hx)]

theorem dropWhile_all_not {p : Char → Bool} {l : List Char}
    (h : ∀ c ∈ l, p c = false) : l.dropWhile p = l := by
  cases l with
  | nil => rfl
  | cons c t =>
    rw [List.dropWhile_cons_of_neg]
    simp [h c (List.mem_cons_self c t)]

theorem length_takeWhile_le' (p : Char → Bool) (l : List Char) :
    (l.takeWhile p).length ≤ l.length := by
  induction l with
  | nil => simp
  | cons c t ih =>
    rw [List.takeWhile_cons]
    by_cases hc : p c = true
    · simp only [hc, if_true, List.length_cons]
      omega
    · simp only [Bool.not_eq_true] at hc
      simp [hc]

/-- Taking while `p` commutes with first cutting at the stronger predicate
`q` (pointwise implied by `p`). -/
theorem takeWhile_takeWhile_of_imp {p q : Char → Bool} (l : List Char)
    (h : ∀ c, p c = true → q c = true) :
    (l.takeWhile q).takeWhile p = l.takeWhile p := by
  induction l with
  | nil => rfl
  | cons c t ih =>
    by_cases hp : p c = true
    · have hq : q c = true := h c hp
      simp only [List.takeWhile_cons, hq, if_true, hp]
      rw [ih]
    · simp only [Bool.not_eq_true] at hp
      by_cases hq : q c = true
      · simp [List.takeWhile_cons, hq, hp]
      · simp only [Bool.not_eq_true] at hq
        simp [List.takeWhile_cons, hq, hp]

theorem dropWhile_head_false {p : Char → Bool} {l t : List Char} {c : Char}
    (h : l.dropWhile p = c :: t) : p c = false := by
  have := List.head?_dropWhile_not p l
  rw [h] at this
  exact this

/-! ## Argument sanitization (claim C5) -/

theorem ruqGo_id {l : List Char} (prev : Option Char)
    (h : ∀ c ∈ l, c ≠ '\'') : ruqGo prev l = l := by
  induction l generalizing prev with
  | nil => rfl
  | cons c t ih =>
    have hc : c ≠ '\'' := h c (List.mem_cons_self c t)
    simp only [ruqGo, List.cons.injEq]
    constructor
    · simp [hc]
    · exact ih (some c) fun x hx => h x (List.mem_cons_of_mem c hx)

theorem dblLGo_id {l : List Char} (h : ∀ c ∈ l, c ≠ '\x7b') : dblLGo l = l := by
  induction l with
  | nil => rfl
  | cons c t ih =>
    have hc : c ≠ '\x7b' := h c (List.mem_cons_self c t)
    simp only [dblLGo, if_neg hc, List.cons.injEq, true_and]
    exact ih fun x hx => h x (List.mem_cons_of_mem c hx)

theorem dblRGo_id {l : List Char} (h : ∀ c ∈ l, c ≠ '\x7d') : dblRGo l = l := by
  induction l with
  | nil => rfl
  | cons c t ih =>
    have hc : c ≠ '\x7d' := h c (List.mem_cons_self c t)
    simp only [dblRGo, if_neg hc, List.cons.injEq, true_and]
    exact ih fun x hx => h x (List.mem_cons_of_mem c hx)

theorem sanitizeArgs_id {s : String}
    (h : ∀ c ∈ s.data, c ≠ '\'' ∧ c ≠ '\x7b' ∧ c ≠ '\x7d') :
    sanitizeArgs s = s := by
  unfold sanitizeArgs doubleBraces replaceUnescapedQuotes
  rw [ruqGo_id none fun c hc => (h c hc).1]
  rw [dblLGo_id fun c hc => (h c hc).2.1, dblRGo_id fun c hc => (h c hc).2.2]

/-! ## The suffix scan of `Tool._run_command` (claims C1, C6, C10) -/

/-- The scan finds nothing exactly when no suffix with start index at most
`n` parses. -/
theorem scanDown_eq_none_iff (s : String) (n : Nat) :
    scanDown s n = none ↔ ∀ i, i ≤ n → jsonLoads (pySlice s i) = none := by
  induction n with
  | zero =>
    simp only [scanDown]
    constructor
    · intro h i hi
      interval_cases i
      exact h
    · intro h
      exact h 0 (Nat.le_refl 0)
  | succ n ih =>
    simp only [scanDown]
    cases h : jsonLoads (pySlice s (n + 1)) with
    | some v =>
      simp only []
      constructor
      · intro hc
        exact absurd hc (by simp)
      · intro hall
        exact absurd (h.symm.trans (hall (n + 1) (Nat.le_refl _))) (by simp)
    | none =>
      simp only []
      rw [ih]
      constructor
      · intro hall i hi
        rcases Nat.lt_or_ge i (n + 1) with hlt | hge
        · exact hall i (Nat.lt_succ_iff.mp hlt)
        · have : i = n + 1 := Nat.le_antisymm hi hge
          rw [this]
          exact h
      · intro hall i hi
        exact hall i (Nat.le_succ_of_le hi)

/-- Unfolding `runCommandExtract` once the last line is known. -/
theorem runCommandExtract_eq {out lastLine : String}
    (hL : (splitLinesPy out).getLast? = some lastLine) :
    runCommandExtract out =
      match scanDown (pyStrip lastLine) (pyStrip lastLine).length with
      | some v => .ok v
      | none => .error (.valueError "No JSON object found in output") := by
  simp only [runCommandExtract]
  rw [hL]

/-- The scan returns `v` exactly when some suffix parses to `v` and every
strictly shorter suffix (larger start index, up to the bound) fails: the
loop of tool.py:160-165 returns the *shortest* parsing suffix. -/
theorem scanDown_eq_some_iff (s : String) (n : Nat) (v : JValue) :
    scanDown s n = some v ↔
      ∃ i, i ≤ n ∧ jsonLoads (pySlice s i) = some v ∧
        ∀ j, j ≤ n → i < j → jsonLoads (pySlice s j) = none := by
  induction n with
  | zero =>
    simp only [scanDown]
    constructor
    · intro h
      exact ⟨0, Nat.le_refl 0, h, fun j hj hlt => absurd (Nat.lt_of_lt_of_le hlt hj) (by simp)⟩
    · rintro ⟨i, hi, hp, -⟩
      interval_cases i
      exact hp
  | succ n ih =>
    simp only [scanDown]
    cases h : jsonLoads (pySlice s (n + 1)) with
    | some w =>
      simp only [Option.some_inj]
      constructor
      · intro hw
        subst hw
        refine ⟨n + 1, Nat.le_refl _, h, fun j hj hlt => absurd hj (by omega)⟩
      · rintro ⟨i, hi, hp, hnone⟩
        rcases Nat.lt_or_ge i (n + 1) with hlt | hge
        · exact absurd (h.symm.trans (hnone (n + 1) (Nat.le_refl _) hlt)) (by simp)
        · have : i = n + 1 := Nat.le_antisymm hi hge
          subst this
          exact Option.some_inj.mp (h.symm.trans hp)
    | none =>
      simp only []
      rw [ih]
      constructor
      · rintro ⟨i, hi, hp, hnone⟩
        refine ⟨i, Nat.le_succ_of_le hi, hp, fun j hj hlt => ?_⟩
        rcases Nat.lt_or_ge j (n + 1) with hjlt | hjge
        · exact hnone j (Nat.lt_succ_iff.mp hjlt) hlt
        · have : j = n + 1 := Nat.le_antisymm hj hjge
          rw [this]
          exact h
      · rintro ⟨i, hi, hp, hnone⟩
        have hine : i ≠ n + 1 := by
          intro he
          rw [he] at hp
          exact absurd (h.symm.trans hp) (by simp)
        have hile : i ≤ n := by omega
        exact ⟨i, hile, hp, fun j hj hlt => hnone j (Nat.le_succ_of_le hj) hlt⟩

/-! ## The bracket-form grammar (claims C3, C7) -/

theorem isNameChar_not_space {c : Char} (h : isNameChar c = true) :
    pyIsSpace c = false := by
  cases hs : pyIsSpace c with
  | false => rfl
  | true =>
    exfalso
    simp only [isNameChar, Bool.or_eq_true, decide_eq_true_eq] at h
    simp only [pyIsSpace, Bool.or_eq_true, decide_eq_true_eq] at hs
    omega

theorem pyStrip_id {s : String} (h : ∀ c ∈ s.data, pyIsSpace c = false) :
    pyStrip s = s := by
  unfold pyStrip
  rw [dropWhile_all_not h]
  rw [dropWhile_all_not fun c hc => h c (List.mem_reverse.mp hc)]
  rw [List.reverse_reverse]

theorem isNameChar_ne_newline {c : Char} (h : isNameChar c = true) :
    (c != '\n') = true := by
  cases he : c == '\n' with
  | false => simp [bne, he]
  | true =>
    exfalso
    have : c = '\n' := beq_iff_eq.mp he
    subst this
    exact absurd h (by decide)

/-- The anchored regex match on a well-formed single-line bracket message:
the two groups are exactly the name and the raw argument. -/
theorem trmCore_bracket {nm arg : List Char}
    (hn : ∀ c ∈ nm, isNameChar c = true)
    (ha : ∀ c ∈ arg, (c != '\n') = true) :
    trmCore (nm ++ '[' :: (arg ++ [']'])) = some (nm, arg) := by
  unfold trmCore
  rw [takeWhile_append_all _ hn]
  rw [show ('[' :: (arg ++ [']'])).takeWhile isNameChar = [] by
    rw [List.takeWhile_cons_of_neg]
    decide]
  simp only [List.append_nil]
  rw [List.drop_left]
  simp only [List.head?_cons, List.tail_cons, Option.some.injEq, if_pos rfl]
  rw [takeWhile_all_eq (by
    intro c hc
    rcases List.mem_append.mp hc with hmem | hmem
    · exact ha c hmem
    · simp only [List.mem_singleton] at hmem
      subst hmem
      decide)]
  rw [List.getLast?_concat, List.dropLast_concat]
  simp

/-- `_start_ollama_chat`'s grammar on a single-line bracket-form message:
the name and argument come back with surrounding whitespace stripped. -/
theorem agentToolCall_bracket {name arg : String}
    (hn : ∀ c ∈ name.data, isNameChar c = true)
    (ha : ∀ c ∈ arg.data, (c != '\n') = true) :
    agentToolCall (name ++ "[" ++ arg ++ "]") = some (pyStrip name, pyStrip arg) := by
  unfold agentToolCall toolRegexMatch
  have hdata : (name ++ "[" ++ arg ++ "]").data = name.data ++ '[' :: (arg.data ++ [']']) := by
    simp [String.data_append]
  rw [hdata, trmCore_bracket hn ha]

/-- `re.match` anchors at position 0 and `.*` cannot cross a newline, so
the regex result is determined by the first line alone. -/
theorem trmCore_firstLine (cs : List Char) :
    trmCore cs = trmCore (cs.takeWhile (fun c => c != '\n')) := by
  have hn : ((cs.takeWhile (fun c => c != '\n')).takeWhile isNameChar)
      = cs.takeWhile isNameChar :=
    takeWhile_takeWhile_of_imp cs fun c hc => isNameChar_ne_newline hc
  have hFq : ∀ x ∈ cs.takeWhile (fun c => c != '\n'), (x != '\n') = true :=
    fun x hx => @List.mem_takeWhile_imp Char (fun c => c != '\n') cs x hx
  have hlen : (cs.takeWhile isNameChar).length ≤ (cs.takeWhile (fun c => c != '\n')).length := by
    rw [← hn]
    exact length_takeWhile_le' _ _
  have hdropcs : cs.drop (cs.takeWhile isNameChar).length
      = ((cs.takeWhile (fun c => c != '\n')).drop (cs.takeWhile isNameChar).length)
        ++ cs.dropWhile (fun c => c != '\n') := by
    calc cs.drop (cs.takeWhile isNameChar).length
        = (cs.takeWhile (fun c => c != '\n') ++ cs.dropWhile (fun c => c != '\n')).drop
            (cs.takeWhile isNameChar).length := by
          rw [List.takeWhile_append_dropWhile]
      _ = _ := by
          rw [List.drop_append_eq_append_drop, Nat.sub_eq_zero_of_le hlen, List.drop_zero]
  have hRtw : (cs.dropWhile (fun c => c != '\n')).takeWhile (fun c => c != '\n') = [] := by
    cases hR : cs.dropWhile (fun c => c != '\n') with
    | nil => rfl
    | cons c' t' =>
      have hfalse : (c' != '\n') = false :=
        @dropWhile_head_false (fun c => c != '\n') cs t' c' hR
      rw [List.takeWhile_cons_of_neg]
      simp [hfalse]
  simp only [trmCore, hn]
  rw [hdropcs]
  cases hd : (cs.takeWhile (fun c => c != '\n')).drop (cs.takeWhile isNameChar).length with
  | nil =>
    simp only [List.nil_append]
    cases hR : cs.dropWhile (fun c => c != '\n') with
    | nil => simp
    | cons c t =>
      have hfalse : (c != '\n') = false :=
        @dropWhile_head_false (fun c => c != '\n') cs t c hR
      have hceq : c = '\n' := by
        simpa using hfalse
      subst hceq
      simp
  | cons c tail =>
    have htail : ∀ x ∈ tail, (x != '\n') = true := by
      intro x hx
      refine hFq x ?_
      refine List.drop_subset (cs.takeWhile isNameChar).length _ ?_
      rw [hd]
      exact List.mem_cons_of_mem c hx
    by_cases hc : c = '['
    · subst hc
      simp only [List.cons_append, List.head?_cons, List.tail_cons]
      rw [takeWhile_append_all _ htail, hRtw, List.append_nil]
      rw [takeWhile_all_eq htail]
    · simp only [List.cons_append, List.head?_cons]
      rw [if_neg (by simp [hc]), if_neg (by simp [hc])]

/-- The grammar of `_start_ollama_chat` depends only on the first line of
the assistant message. -/
theorem agentToolCall_firstLine (s : String) :
    agentToolCall s = agentToolCall (firstLinePy s) := by
  unfold agentToolCall toolRegexMatch firstLinePy
  rw [trmCore_firstLine s.data]

/-! ## `splitlines` and line joining (claim C8) -/

/-- Stepping over one non-break character accumulates it, whatever the
carriage-return flag was. -/
theorem slGo_cons_no_break {c : Char} (b : Bool) (rest acc : List Char)
    (hc : isLineBreak c = false) :
    slGo b (c :: rest) acc = slGo false rest (acc ++ [c]) := by
  have h1 : c ≠ '\n' := by
    intro he
    subst he
    simp [isLineBreak] at hc
  have h2 : c ≠ '\r' := by
    intro he
    subst he
    simp [isLineBreak] at hc
  rw [slGo]
  simp [h1, h2, hc]

theorem slGo_no_break {cs : List Char} (b : Bool) (acc : List Char)
    (h : ∀ c ∈ cs, isLineBreak c = false) :
    slGo b cs acc = if acc ++ cs = [] then [] else [⟨acc ++ cs⟩] := by
  induction cs generalizing b acc with
  | nil =>
    simp [slGo]
  | cons c rest ih =>
    have hc : isLineBreak c = false := h c (List.mem_cons_self c rest)
    rw [slGo_cons_no_break b rest acc hc]
    rw [ih false (acc ++ [c]) fun x hx => h x (List.mem_cons_of_mem c hx)]
    simp

theorem slGo_line_newline {a : List Char} (acc rest : List Char)
    (h : ∀ c ∈ a, isLineBreak c = false) :
    slGo false (a ++ '\n' :: rest) acc = (⟨acc ++ a⟩ : String) :: slGo false rest [] := by
  induction a generalizing acc with
  | nil =>
    rw [List.nil_append, slGo]
    simp [isLineBreak]
  | cons c t ih =>
    have hc : isLineBreak c = false := h c (List.mem_cons_self c t)
    rw [List.cons_append, slGo_cons_no_break false _ acc hc]
    rw [ih (acc ++ [c]) fun x hx => h x (List.mem_cons_of_mem c hx)]
    simp

theorem string_data_eq_nil {l : String} (h : l.data = []) : l = "" := by
  cases l
  simp_all

/-- `splitlines` is a left inverse of joining with `'\n'`, for a non-empty
list of line-break-free lines whose last line is non-empty. -/
theorem splitLinesPy_joinLines {ls : List String} (hne : ls ≠ [])
    (hfree : ∀ l ∈ ls, ∀ c ∈ l.data, isLineBreak c = false)
    (hlast : ∀ lst, ls.getLast? = some lst → lst ≠ "") :
    splitLinesPy (joinLines ls) = ls := by
  induction ls with
  | nil => exact absurd rfl hne
  | cons l rest ih =>
    cases rest with
    | nil =>
      have hl : l ≠ "" := hlast l rfl
      have hld : l.data ≠ [] := fun h => hl (string_data_eq_nil h)
      unfold splitLinesPy
      rw [show joinLines [l] = l from rfl]
      rw [slGo_no_break false [] (hfree l (List.mem_cons_self l []))]
      simp [hld]
    | cons l' rest' =>
      have hjoin : joinLines (l :: l' :: rest') = l ++ "\n" ++ joinLines (l' :: rest') := rfl
      unfold splitLinesPy
      rw [hjoin]
      have hdata : (l ++ "\n" ++ joinLines (l' :: rest')).data
          = l.data ++ '\n' :: (joinLines (l' :: rest')).data := by
        simp [String.data_append]
      rw [hdata]
      rw [slGo_line_newline [] (joinLines (l' :: rest')).data
        (hfree l (List.mem_cons_self l (l' :: rest')))]
      simp only [List.nil_append]
      have hrec : slGo false (joinLines (l' :: rest')).data [] = l' :: rest' := by
        have := ih (by simp)
          (fun x hx => hfree x (List.mem_cons_of_mem l hx))
          (fun lst hlst => hlast lst (by rw [List.getLast?_cons_cons]; exact hlst))
        exact this
      rw [hrec]

/-! ## The history alternation invariant (claim C4) -/

def lastRole (msgs : List Message) : Option Role :=
  msgs.getLast?.map Message.role

theorem alternOk_append_single {ms : List Message} {m : Message}
    (h : alternOk ms = true)
    (h2 : ∀ lm, ms.getLast? = some lm → consecOk lm.role m.role = true) :
    alternOk (ms ++ [m]) = true := by
  induction ms with
  | nil => rfl
  | cons x xs ih =>
    cases xs with
    | nil =>
      simp only [List.cons_append, List.nil_append, alternOk, Bool.and_eq_true]
      exact ⟨h2 x rfl, trivial⟩
    | cons y ys =>
      simp only [alternOk, Bool.and_eq_true] at h
      have hxy := h.1
      have htail := h.2
      have h2' : ∀ lm, (y :: ys).getLast? = some lm → consecOk lm.role m.role = true := by
        intro lm hlm
        exact h2 lm (by rw [List.getLast?_cons_cons]; exact hlm)
      have := ih htail h2'
      simp only [List.cons_append, alternOk, Bool.and_eq_true]
      refine ⟨hxy, ?_⟩
      simpa using this

theorem alternOk_prefix {l₁ l₂ : List Message}
    (h : alternOk (l₁ ++ l₂) = true) : alternOk l₁ = true := by
  induction l₁ with
  | nil => rfl
  | cons x xs ih =>
    cases xs with
    | nil => rfl
    | cons y ys =>
      simp only [List.cons_append, alternOk, Bool.and_eq_true] at h ⊢
      exact ⟨h.1, ih (by simpa using h.2)⟩

theorem lastRole_append_single (ms : List Message) (m : Message) :
    lastRole (ms ++ [m]) = some m.role := by
  unfold lastRole
  rw [List.getLast?_concat]
  rfl

theorem lastRole_of_getLast? {msgs : List Message} {m : Message}
    (h : msgs.getLast? = some m) : lastRole msgs = some m.role := by
  unfold lastRole
  rw [h]
  rfl

theorem getLast?_none_eq_nil {α : Type} {l : List α}
    (h : l.getLast? = none) : l = [] := by
  cases l with
  | nil => rfl
  | cons x xs =>
    simp [List.getLast?] at h

/-- Every appended user/tool message of `_start_ollama_chat`'s first half. -/
theorem ollamaPre_ok_shape {tools : List ToolSpec} {toolRun : ToolRunOracle}
    {msgs msgs' : List Message} {u : String}
    (h : ollamaPre tools toolRun msgs u = .ok msgs') :
    ∃ m : Message, (m.role = .user ∨ m.role = .tool) ∧ msgs' = msgs ++ [m] := by
  unfold ollamaPre at h
  split at h
  · split at h
    · split at h
      · split at h
        · exact absurd h (by simp)
        · injection h with h
          exact ⟨_, Or.inr rfl, h.symm⟩
      · injection h with h
        exact ⟨_, Or.inl rfl, h.symm⟩
    · injection h with h
      exact ⟨_, Or.inl rfl, h.symm⟩
  · injection h with h
    exact ⟨_, Or.inl rfl, h.symm⟩

/-- Strengthened invariant for the `_start_ollama_chat` loop: the history
always alternates, loop-top histories end in nothing/`system`/`assistant`,
and mid-turn histories end in `user`/`tool`. -/
theorem ollamaReach_invariant {tools : List ToolSpec} {toolRun : ToolRunOracle}
    {ph : Nat} {msgs : List Message} (h : OllamaReach tools toolRun ph msgs) :
    alternOk msgs = true ∧
    (ph = 0 → lastRole msgs = none ∨ lastRole msgs = some .system ∨
      lastRole msgs = some .assistant) ∧
    (ph = 1 → lastRole msgs = some .user ∨ lastRole msgs = some .tool) := by
  induction h with
  | start sp =>
    unfold ollamaInit
    by_cases hsp : sp = ""
    · rw [if_pos hsp]
      exact ⟨rfl, fun _ => Or.inl rfl, by simp⟩
    · rw [if_neg hsp]
      exact ⟨rfl, fun _ => Or.inr (Or.inl rfl), by simp⟩
  | pre u hreach hok ih =>
    obtain ⟨m, hrole, hshape⟩ := ollamaPre_ok_shape hok
    subst hshape
    obtain ⟨halt, htop, -⟩ := ih
    refine ⟨?_, by simp, fun _ => ?_⟩
    · refine alternOk_append_single halt ?_
      intro lm hlm
      have hlast := lastRole_of_getLast? hlm
      rcases htop rfl with h0 | h0 | h0
      · rw [h0] at hlast
        exact absurd hlast (by simp)
      · have : lm.role = .system := by
          rw [h0] at hlast
          exact (Option.some_inj.mp hlast).symm
        rcases hrole with hr | hr <;> rw [this, hr] <;> decide
      · have : lm.role = .assistant := by
          rw [h0] at hlast
          exact (Option.some_inj.mp hlast).symm
        rcases hrole with hr | hr <;> rw [this, hr] <;> decide
    · rw [lastRole_append_single]
      rcases hrole with hr | hr
      · exact Or.inl (by rw [hr])
      · exact Or.inr (by rw [hr])
  | asst a hreach ih =>
    obtain ⟨halt, -, hmid⟩ := ih
    refine ⟨?_, fun _ => ?_, by simp⟩
    · refine alternOk_append_single halt ?_
      intro lm hlm
      have hlast := lastRole_of_getLast? hlm
      rcases hmid rfl with h0 | h0
      · have : lm.role = .user := by
          rw [h0] at hlast
          exact (Option.some_inj.mp hlast).symm
        rw [this]
        rfl
      · have : lm.role = .tool := by
          rw [h0] at hlast
          exact (Option.some_inj.mp hlast).symm
        rw [this]
        rfl
    · rw [lastRole_append_single]
      exact Or.inr (Or.inr rfl)

/-- `anthUserStep` sends a loop-top history to one ending in a `user`
message, preserving alternation. -/
theorem anthUserStep_invariant {msgs : List Message} {u : String}
    (halt : alternOk msgs = true)
    (htop : lastRole msgs = none ∨ lastRole msgs = some .user ∨
      lastRole msgs = some .assistant) :
    alternOk (anthUserStep msgs u) = true ∧ lastRole (anthUserStep msgs u) = some .user := by
  unfold anthUserStep
  split
  · next hlm =>
    have : msgs = [] := getLast?_none_eq_nil hlm
    subst this
    exact ⟨rfl, rfl⟩
  · next m hlm =>
    have hlast : lastRole msgs = some m.role := lastRole_of_getLast? hlm
    by_cases hrole : m.role = Role.user
    · rw [if_neg (by simp [hrole])]
      exact ⟨halt, by rw [hlast, hrole]⟩
    · rw [if_pos hrole]
      refine ⟨?_, by rw [lastRole_append_single]⟩
      refine alternOk_append_single halt ?_
      intro lm hlm2
      have : lm = m := by
        rw [hlm] at hlm2
        exact Option.some_inj.mp hlm2.symm
      subst this
      rcases htop with h0 | h0 | h0
      · rw [hlast] at h0
        cases h0
      · rw [hlast] at h0
        exact absurd (Option.some_inj.mp h0) hrole
      · have : lm.role = .assistant := Option.some_inj.mp (hlast.symm.trans h0)
        rw [this]
        rfl

/-- When the anthropic turn carries no tool uses, the assistant step either
appends one assistant text message or nothing. -/
theorem anthModelTurn_ok_shape {tools : List ToolSpec} {toolRun : ToolRunOracle}
    {msgs msgs' : List Message} {text : String} {tus : List ToolUse}
    (h : anthModelTurn tools toolRun msgs text tus = .ok msgs') :
    (tus = [] ∧ text ≠ "" ∧ msgs' = msgs ++ [⟨.assistant, .text text⟩]) ∨
    (tus = [] ∧ msgs' = msgs) ∨
    (tus ≠ [] ∧ ∃ bs, msgs' = msgs ++ [⟨.assistant, .blocks (anthAsstBlocks text tus)⟩,
      ⟨.user, .blocks bs⟩]) := by
  unfold anthModelTurn at h
  by_cases htus : tus = []
  · subst htus
    have htool : anthToolStep tools toolRun (anthAsstStep msgs text []) []
        = .ok (anthAsstStep msgs text []) := rfl
    rw [htool] at h
    injection h with h
    by_cases htext : text ≠ ""
    · rw [show anthAsstStep msgs text [] = msgs ++ [(⟨.assistant, .text text⟩ : Message)] by
        unfold anthAsstStep
        rw [if_pos ⟨htext, rfl⟩]] at h
      exact Or.inl ⟨rfl, htext, h.symm⟩
    · rw [show anthAsstStep msgs text [] = msgs by
        unfold anthAsstStep
        rw [if_neg (fun hand => htext hand.1), if_neg (by simp)]] at h
      exact Or.inr (Or.inl ⟨rfl, h.symm⟩)
  · have hasst : anthAsstStep msgs text tus
        = msgs ++ [(⟨.assistant, .blocks (anthAsstBlocks text tus)⟩ : Message)] := by
      unfold anthAsstStep
      rw [if_neg (fun hand => htus hand.2), if_pos htus]
    rw [hasst] at h
    unfold anthToolStep at h
    rw [if_neg htus] at h
    cases hc : anthCollectResults tools toolRun tus with
    | ok bs =>
      rw [hc] at h
      injection h with h
      refine Or.inr (Or.inr ⟨htus, bs, ?_⟩)
      rw [← h, List.append_assoc]
      rfl
    | error e =>
      rw [hc] at h
      cases h

/-- Strengthened invariant for the `_start_anthropic_chat` loop. -/
theorem anthReach_invariant {tools : List ToolSpec} {toolRun : ToolRunOracle}
    {ph : Nat} {msgs : List Message} (h : AnthReach tools toolRun ph msgs) :
    alternOk msgs = true ∧
    (ph = 0 → lastRole msgs = none ∨ lastRole msgs = some .user ∨
      lastRole msgs = some .assistant) ∧
    (ph = 1 → lastRole msgs = some .user) := by
  induction h with
  | start => exact ⟨rfl, fun _ => Or.inl rfl, by simp⟩
  | user u hreach ih =>
    obtain ⟨halt, htop, -⟩ := ih
    obtain ⟨h1, h2⟩ := anthUserStep_invariant halt (htop rfl)
    exact ⟨h1, by simp, fun _ => h2⟩
  | @turn ms ms' text tus hreach hok ih =>
    obtain ⟨halt, -, hmid⟩ := ih
    have huser := hmid rfl
    rcases anthModelTurn_ok_shape hok with ⟨-, -, hshape⟩ | ⟨-, hshape⟩ | ⟨-, bs, hshape⟩
    · subst hshape
      refine ⟨?_, fun _ => Or.inr (Or.inr (by rw [lastRole_append_single])), by simp⟩
      refine alternOk_append_single halt ?_
      intro lm hlm
      have : some lm.role = some Role.user := by
        unfold lastRole at huser
        rw [hlm] at huser
        exact huser
      rw [Option.some_inj.mp this]
      rfl
    · subst hshape
      exact ⟨halt, fun _ => Or.inr (Or.inl huser), by simp⟩
    · subst hshape
      have step1 : alternOk (ms ++ [(⟨.assistant, .blocks (anthAsstBlocks text tus)⟩ : Message)]) = true := by
        refine alternOk_append_single halt ?_
        intro lm hlm
        have : some lm.role = some Role.user := by
          unfold lastRole at huser
          rw [hlm] at huser
          exact huser
        rw [Option.some_inj.mp this]
        rfl
      have step2 : alternOk ((ms ++ [(⟨.assistant, .blocks (anthAsstBlocks text tus)⟩ : Message)])
          ++ [(⟨.user, .blocks bs⟩ : Message)]) = true := by
        refine alternOk_append_single step1 ?_
        intro lm hlm
        rw [List.getLast?_concat] at hlm
        have : lm = (⟨.assistant, .blocks (anthAsstBlocks text tus)⟩ : Message) :=
          Option.some_inj.mp hlm.symm
        subst this
        rfl
      have hassoc : ms ++ [(⟨.assistant, .blocks (anthAsstBlocks text tus)⟩ : Message),
          (⟨.user, .blocks bs⟩ : Message)]
            = (ms ++ [(⟨.assistant, .blocks (anthAsstBlocks text tus)⟩ : Message)])
              ++ [(⟨.user, .blocks bs⟩ : Message)] := by
        rw [List.append_assoc]
        rfl
      refine ⟨?_, fun _ => Or.inr (Or.inl ?_), by simp⟩
      · rw [hassoc]
        exact step2
      · rw [hassoc, lastRole_append_single]

/-! ## Unknown-tool lookup (claim C2) -/

/-- An unknown tool name among the tool uses makes the anthropic result
collection raise `IndexError`. -/
theorem anthCollectResults_unknown {tools : List ToolSpec} {toolRun : ToolRunOracle}
    {tus : List ToolUse}
    (h : ∃ tu ∈ tus, ∀ t ∈ tools, t.name ≠ tu.name) :
    anthCollectResults tools toolRun tus = .error .indexError := by
  induction tus with
  | nil => simp at h
  | cons tu rest ih =>
    unfold anthCollectResults
    obtain ⟨tu', htu', hunk⟩ := h
    rcases List.mem_cons.mp htu' with heq | hmem
    · rw [heq] at hunk
      have hfilter : (tools.filter fun t => t.name == tu.name) = [] := by
        rw [List.filter_eq_nil_iff]
        intro t ht
        simp only [beq_iff_eq]
        simpa using hunk t ht
      rw [hfilter]
      rfl
    · cases hf : (tools.filter fun t => t.name == tu.name).head? with
      | none => rfl
      | some tool =>
        rw [ih ⟨tu', hmem, hunk⟩]

/-! # Claim theorems -/

/-- **C1, counterexample.**  The claim says extraction tests the suffixes of
the stripped last line from longest to shortest and returns the first that
parses.  On the output `123` (last line `123`) the code returns `3` — the
shortest parsing suffix — while the order the claim describes would return
`123`; the two extractions disagree, so the claim as stated is false. -/
theorem c1_counterexample :
    runCommandExtract "123" = .ok (JValue.num "3") ∧
    specLongestFirstScan (pyStrip ((splitLinesPy "123").getLastD "")) = some (JValue.num "123") ∧
    JValue.num "3" ≠ JValue.num "123" := by
  refine ⟨rfl, rfl, ?_⟩
  intro h
  injection h with h
  exact absurd h (by decide)

/-- **C1 (amended).**  For every tool invocation, after the process and both
stream tasks complete, result extraction takes the last line of the
accumulated output (stripped of surrounding whitespace) and tests its
suffixes from *shortest to longest* — the empty suffix first, then growing
one character at a time towards the start of the line — returning the value
of the first suffix that parses as JSON: the extraction succeeds with `v`
exactly when some suffix (start index `i`) parses to `v` and every strictly
shorter suffix (start index `j > i`) fails to parse. -/
theorem c1_extraction_shortest_suffix_first :
    ∀ (out : String) (v : JValue), splitLinesPy out ≠ [] →
      (runCommandExtract out = .ok v ↔
        ∃ i, i ≤ (pyStrip ((splitLinesPy out).getLastD "")).length ∧
          jsonLoads (pySlice (pyStrip ((splitLinesPy out).getLastD "")) i) = some v ∧
          ∀ j, j ≤ (pyStrip ((splitLinesPy out).getLastD "")).length → i < j →
            jsonLoads (pySlice (pyStrip ((splitLinesPy out).getLastD "")) j) = none) := by
  intro out v hne
  cases hL : (splitLinesPy out).getLast? with
  | none => exact absurd (getLast?_none_eq_nil hL) hne
  | some lastLine =>
    have hD : (splitLinesPy out).getLastD "" = lastLine := by
      rw [List.getLastD_eq_getLast?, hL]
      rfl
    rw [hD, runCommandExtract_eq hL]
    cases hscan : scanDown (pyStrip lastLine) (pyStrip lastLine).length with
    | some w =>
      constructor
      · intro hok
        have hwv : w = v := by injection hok
        subst hwv
        exact (scanDown_eq_some_iff (pyStrip lastLine) (pyStrip lastLine).length w).mp hscan
      · intro hex
        have h2 := (scanDown_eq_some_iff (pyStrip lastLine) (pyStrip lastLine).length v).mpr hex
        rw [hscan] at h2
        have hwv : w = v := by injection h2
        rw [hwv]
    | none =>
      constructor
      · intro hok
        have h2 : (Except.error (PyExc.valueError "No JSON object found in output")
            : Except PyExc JValue) = Except.ok v := hok
        cases h2
      · intro hex
        have h2 := (scanDown_eq_some_iff (pyStrip lastLine) (pyStrip lastLine).length v).mpr hex
        rw [hscan] at h2
        exact Option.noConfusion h2

/-- **C1, witness.**  On output `123` the hypotheses of the amended claim
hold at suffix start index 2, and extraction indeed returns `3`. -/
theorem c1_witness : runCommandExtract "123" = .ok (JValue.num "3") := by
  refine (c1_extraction_shortest_suffix_first "123" (JValue.num "3") (by decide)).mpr
    ⟨2, by decide, rfl, ?_⟩
  intro j h1 h2
  have hlen : (pyStrip ((splitLinesPy "123").getLastD "")).length = 3 := rfl
  rw [hlen] at h1
  have h3 : j = 3 := by omega
  subst h3
  rfl

/-- **C2, counterexample.**  The claim says an unknown tool name is surfaced
as `UnknownTool` and the loop returns to awaiting user input without
crashing.  In both variants the tool is selected by an unguarded `[0]` on
the filtered tool list, outside any `try`: with no tool named `ghost_tool`
configured, the turn raises `IndexError` (modelled as `.error .indexError`,
an uncaught exception that terminates the loop) instead of producing a
continuing history. -/
theorem c2_counterexample :
    ollamaPre [] (fun _ _ => .ok "")
        [⟨.assistant, .text ("ghost_tool[" ++ "\x7b\x7d" ++ "]")⟩] ""
      = .error .indexError ∧
    anthToolStep [] (fun _ _ => .ok "") [] [⟨"toolu_1", "ghost_tool", "\x7b\x7d"⟩]
      = .error .indexError :=
  ⟨rfl, rfl⟩

/-- **C2 (amended).**  When the grammar (or a streamed tool-use block) names
a tool that is not in the agent's configured tool set, the unguarded index
into the filtered tool list raises `IndexError`, which no handler catches:
the turn crashes the loop instead of surfacing an `UnknownTool` error and
returning to await user input.  This holds for both provider variants. -/
theorem c2_unknown_tool_crashes :
    (∀ (tools : List ToolSpec) (toolRun : ToolRunOracle) (msgs : List Message)
        (m : Message) (u tn ti : String),
      msgs.getLast? = some m → m.role = .assistant →
      agentToolCall (msgText m.content) = some (tn, ti) →
      (∀ t ∈ tools, t.name ≠ tn) →
      ollamaPre tools toolRun msgs u = .error .indexError) ∧
    (∀ (tools : List ToolSpec) (toolRun : ToolRunOracle) (msgs : List Message)
        (tus : List ToolUse),
      (∃ tu ∈ tus, ∀ t ∈ tools, t.name ≠ tu.name) →
      anthToolStep tools toolRun msgs tus = .error .indexError) := by
  constructor
  · intro tools toolRun msgs m u tn ti hlm hrole hcall hunk
    unfold ollamaPre
    split
    · next m' heq =>
      have hm : m' = m := Option.some_inj.mp (heq.symm.trans hlm)
      subst hm
      rw [if_pos hrole]
      split
      · next toolName toolInputs heq2 =>
        have hpair : (toolName, toolInputs) = (tn, ti) :=
          Option.some_inj.mp (heq2.symm.trans hcall)
        have hname : toolName = tn := congrArg Prod.fst hpair
        split
        · next _ => rfl
        · next tool heq3 =>
          exfalso
          have hfilter : (tools.filter fun t => t.name == toolName) = [] := by
            rw [List.filter_eq_nil_iff]
            intro t ht
            rw [hname]
            simpa using hunk t ht
          rw [hfilter] at heq3
          exact Option.noConfusion heq3
      · next heq2 =>
        rw [heq2] at hcall
        exact Option.noConfusion hcall
    · next heq =>
      rw [heq] at hlm
      cases hlm
  · intro tools toolRun msgs tus hex
    have htus : tus ≠ [] := by
      rintro rfl
      simp at hex
    unfold anthToolStep
    rw [if_neg htus, anthCollectResults_unknown hex]

/-- **C2, witness.**  A configured set holding only `real_tool` and an
assistant message invoking `ghost_tool`: the ollama-variant turn raises
`IndexError`. -/
theorem c2_witness :
    ollamaPre [⟨"real_tool", "", "python", "run main"⟩] (fun _ _ => .ok "")
        [⟨.assistant, .text ("ghost_tool[" ++ "\x7b\x7d" ++ "]")⟩] "input"
      = .error .indexError :=
  c2_unknown_tool_crashes.1 [⟨"real_tool", "", "python", "run main"⟩]
    (fun _ _ => .ok "")
    [⟨.assistant, .text ("ghost_tool[" ++ "\x7b\x7d" ++ "]")⟩]
    ⟨.assistant, .text ("ghost_tool[" ++ "\x7b\x7d" ++ "]")⟩
    "input" "ghost_tool" "\x7b\x7d" rfl rfl rfl
    (by decide)

/-- **C3, counterexample.**  The claim says that when several lines of a
multi-line assistant message match the bracket form, the grammar returns
the match of the *last* such line.  On `a[1]\nb[2]` both lines match, the
last-line match is `("b", "2")`, but the grammar (re.match, anchored at
position 0) returns the first line's `("a", "1")`. -/
theorem c3_counterexample :
    agentToolCall ("a[1]" ++ "\n" ++ "b[2]") = some ("a", "1") ∧
    specLastLineMatch ("a[1]" ++ "\n" ++ "b[2]") = some ("b", "2") ∧
    (("a", "1") : String × String) ≠ ("b", "2") :=
  ⟨rfl, rfl, by decide⟩

/-- **C3 (amended).**  The grammar is applied with `re.match`, anchored at
the start of the message: its result is determined by the *first* line
alone — it returns that line's bracket-form match (whitespace-stripped)
when the first line has the form `name[arg]`, regardless of any later
matching lines, and reports no invocation otherwise. -/
theorem c3_grammar_first_line_only :
    (∀ s : String, agentToolCall s = agentToolCall (firstLinePy s)) ∧
    (∀ (name arg rest : String),
      (∀ c ∈ name.data, isNameChar c = true) →
      (∀ c ∈ arg.data, (c != '\n') = true) →
      agentToolCall (name ++ "[" ++ arg ++ "]" ++ "\n" ++ rest)
        = some (pyStrip name, pyStrip arg)) := by
  constructor
  · exact agentToolCall_firstLine
  · intro name arg rest hn ha
    rw [agentToolCall_firstLine]
    have hline : ∀ c ∈ (name ++ "[" ++ arg ++ "]").data, (c != '\n') = true := by
      intro c hc
      rw [show (name ++ "[" ++ arg ++ "]").data
          = name.data ++ '[' :: (arg.data ++ [']']) by simp [String.data_append]] at hc
      rcases List.mem_append.mp hc with hm | hm
      · exact isNameChar_ne_newline (hn c hm)
      · rcases List.mem_cons.mp hm with hm2 | hm2
        · subst hm2
          decide
        · rcases List.mem_append.mp hm2 with hm3 | hm3
          · exact ha c hm3
          · simp only [List.mem_singleton] at hm3
            subst hm3
            decide
    have hfl : firstLinePy (name ++ "[" ++ arg ++ "]" ++ "\n" ++ rest)
        = name ++ "[" ++ arg ++ "]" := by
      unfold firstLinePy
      rw [show (name ++ "[" ++ arg ++ "]" ++ "\n" ++ rest).data
          = (name ++ "[" ++ arg ++ "]").data ++ '\n' :: rest.data by
        simp [String.data_append]]
      rw [takeWhile_append_all _ hline]
      rw [List.takeWhile_cons_of_neg (by simp)]
      rw [List.append_nil]
    rw [hfl]
    exact agentToolCall_bracket hn ha

/-- **C3, witness.**  The amended claim at `a[1]\nb[2]`: the first line's
match is returned. -/
theorem c3_witness :
    agentToolCall ("a" ++ "[" ++ "1" ++ "]" ++ "\n" ++ "b[2]")
      = some (pyStrip "a", pyStrip "1") :=
  c3_grammar_first_line_only.2 "a" "1" "b[2]" (by decide) (by decide)

/-- **C4 (confirmed).**  Every history reachable by the conversation loop —
in either provider variant, at the top of the loop as well as at the
intermediate point after the user/tool message is appended — alternates:
never two consecutive `assistant` messages, never two consecutive
`user`/`tool` messages.  The invariant is also inherited by every prefix
of a history, hence holds after each individual append. -/
theorem c4_history_alternation :
    (∀ (tools : List ToolSpec) (toolRun : ToolRunOracle) (ph : Nat)
        (msgs : List Message),
      OllamaReach tools toolRun ph msgs → alternOk msgs = true) ∧
    (∀ (tools : List ToolSpec) (toolRun : ToolRunOracle) (ph : Nat)
        (msgs : List Message),
      AnthReach tools toolRun ph msgs → alternOk msgs = true) ∧
    (∀ l₁ l₂ : List Message, alternOk (l₁ ++ l₂) = true → alternOk l₁ = true) :=
  ⟨fun _ _ _ _ h => (ollamaReach_invariant h).1,
   fun _ _ _ _ h => (anthReach_invariant h).1,
   fun _ _ h => alternOk_prefix h⟩

/-- **C4, witness.**  A concrete run of the ollama loop — empty system
prompt, one user turn, one assistant turn — reaches an alternating
history. -/
theorem c4_witness :
    alternOk [(⟨.user, .text "hi"⟩ : Message), ⟨.assistant, .text "hello"⟩] = true :=
  c4_history_alternation.1 [] (fun _ _ => .ok "") 0
    [⟨.user, .text "hi"⟩, ⟨.assistant, .text "hello"⟩]
    (OllamaReach.asst "hello" (OllamaReach.pre "hi" (OllamaReach.start "") rfl))

/-- **C5 (confirmed).**  `Tool.run` applies exactly two substitutions, in
this order and unconditionally, before spawning the process: first every
unescaped single quote becomes a double quote, then every literal brace is
doubled; on inputs free of single quotes and braces the sanitization is the
identity, hence idempotent. -/
theorem c5_sanitization :
    (∀ args : String, sanitizeArgs args = doubleBraces (replaceUnescapedQuotes args)) ∧
    (∀ (t : ToolRunSpec) (args : String), t.language = "python" →
      toolRunCmd t args = .ok ["hatch", "--data-dir", ".venv", "run", t.entrypoint,
        "'" ++ sanitizeArgs args ++ "'"]) ∧
    (∀ args : String, (∀ c ∈ args.data, c ≠ '\'' ∧ c ≠ '\x7b' ∧ c ≠ '\x7d') →
      sanitizeArgs args = args ∧ sanitizeArgs (sanitizeArgs args) = sanitizeArgs args) := by
  refine ⟨fun _ => rfl, fun t args ht => ?_, fun args h => ?_⟩
  · unfold toolRunCmd
    rw [if_neg (by simp [ht])]
  · have h1 := sanitizeArgs_id h
    exact ⟨h1, by rw [h1]; exact h1⟩

/-- **C5, witness.**  A quote- and brace-free argument string is fixed by
the sanitization, and a Python tool's command embeds the sanitized
argument. -/
theorem c5_witness :
    (sanitizeArgs "[1, 2]" = "[1, 2]" ∧
      sanitizeArgs (sanitizeArgs "[1, 2]") = sanitizeArgs "[1, 2]") ∧
    toolRunCmd ⟨"python", "run main"⟩ "[1, 2]"
      = .ok ["hatch", "--data-dir", ".venv", "run", "run main",
          "'" ++ sanitizeArgs "[1, 2]" ++ "'"] :=
  ⟨c5_sanitization.2.2 "[1, 2]" (by decide),
   c5_sanitization.2.1 ⟨"python", "run main"⟩ "[1, 2]" rfl⟩

/-- **C6 (confirmed).**  A non-zero exit status of the tool process is not
by itself fatal: `_run_command` never consults the exit status, so the
result is the same for every exit status, and extraction fails with
`NoStructuredOutput` (the `ValueError`) exactly when no suffix of the
final stripped line parses as JSON. -/
theorem c6_nonzero_exit_not_fatal :
    (∀ (e₁ e₂ : Int) (out : String),
      toolRunCommand ⟨e₁, out⟩ = toolRunCommand ⟨e₂, out⟩) ∧
    (∀ out : String, splitLinesPy out ≠ [] →
      (runCommandExtract out = .error (.valueError "No JSON object found in output") ↔
        allSuffixesFail (pyStrip ((splitLinesPy out).getLastD "")) = true)) := by
  refine ⟨fun _ _ _ => rfl, fun out hne => ?_⟩
  cases hL : (splitLinesPy out).getLast? with
  | none => exact absurd (getLast?_none_eq_nil hL) hne
  | some lastLine =>
    have hD : (splitLinesPy out).getLastD "" = lastLine := by
      rw [List.getLastD_eq_getLast?, hL]
      rfl
    rw [hD, runCommandExtract_eq hL]
    have hiff : allSuffixesFail (pyStrip lastLine) = true ↔
        ∀ i, i ≤ (pyStrip lastLine).length →
          jsonLoads (pySlice (pyStrip lastLine) i) = none := by
      unfold allSuffixesFail
      rw [List.all_eq_true]
      constructor
      · intro h i hi
        have := h i (List.mem_range.mpr (by omega))
        exact Option.isNone_iff_eq_none.mp this
      · intro h i hi
        have := h i (by have := List.mem_range.mp hi; omega)
        rw [this]
        rfl
    cases hscan : scanDown (pyStrip lastLine) (pyStrip lastLine).length with
    | some w =>
      constructor
      · intro hok
        have h2 : (Except.ok w : Except PyExc JValue)
            = .error (.valueError "No JSON object found in output") := hok
        cases h2
      · intro hall
        have := (scanDown_eq_none_iff (pyStrip lastLine) (pyStrip lastLine).length).mpr
          (hiff.mp hall)
        rw [hscan] at this
        exact Option.noConfusion this
    | none =>
      constructor
      · intro _
        exact hiff.mpr ((scanDown_eq_none_iff (pyStrip lastLine) (pyStrip lastLine).length).mp hscan)
      · intro _
        rfl

/-- **C6, witness.**  With exit status 3 and output `hello` the result
equals the exit-status-0 result, and since no suffix of `hello` parses as
JSON, extraction fails with the `ValueError`. -/
theorem c6_witness :
    toolRunCommand ⟨3, "hello"⟩ = toolRunCommand ⟨0, "hello"⟩ ∧
    runCommandExtract "hello" = .error (.valueError "No JSON object found in output") :=
  ⟨c6_nonzero_exit_not_fatal.1 3 0 "hello",
   (c6_nonzero_exit_not_fatal.2 "hello" (by decide)).mpr rfl⟩

/-- **C7 (confirmed).**  For every single-line assistant message of the
valid bracket form `name[arg]` (identifier characters for the name, no
newline in the argument), the grammar returns the pair with surrounding
whitespace trimmed from both components; the name, being made of
identifier characters, contains no whitespace, so trimming fixes it. -/
theorem c7_bracket_form_exact :
    ∀ (name arg : String),
      (∀ c ∈ name.data, isNameChar c = true) →
      (∀ c ∈ arg.data, (c != '\n') = true) →
      agentToolCall (name ++ "[" ++ arg ++ "]") = some (pyStrip name, pyStrip arg) ∧
      pyStrip name = name :=
  fun _ _ hn ha =>
    ⟨agentToolCall_bracket hn ha,
     pyStrip_id fun c hc => isNameChar_not_space (hn c hc)⟩

/-- **C7, witness.**  `echo_tool[ \x7b\x7d ]` parses to the stripped pair
`("echo_tool", "\x7b\x7d")`. -/
theorem c7_witness :
    agentToolCall ("echo_tool" ++ "[" ++ " \x7b\x7d " ++ "]")
      = some ("echo_tool", "\x7b\x7d") :=
  (c7_bracket_form_exact "echo_tool" " \x7b\x7d " (by decide) (by decide)).1

/-- **C8 (confirmed, modelled from the spec).**  For every ReAct-dialect
assistant message (a join of newline-free lines): if a `Final Answer:` line
is present anywhere, the grammar reports no tool invocation regardless of
any `Action:` lines; otherwise it returns the last `Action:` match. -/
theorem c8_react_final_answer_wins :
    ∀ ls : List String, ls ≠ [] →
      (∀ l ∈ ls, ∀ c ∈ l.data, isLineBreak c = false) →
      ls.getLastD "" ≠ "" →
      ((ls.any isFinalAnswerLine = true → reactParse (joinLines ls) = none) ∧
       (ls.any isFinalAnswerLine = false →
         reactParse (joinLines ls) = (ls.filterMap reactActionMatch).getLast?)) := by
  intro ls h1 h2 h3
  have h3' : ∀ lst, ls.getLast? = some lst → lst ≠ "" := by
    intro lst hlst
    rw [List.getLastD_eq_getLast?, hlst] at h3
    exact h3
  have hsplit := splitLinesPy_joinLines h1 h2 h3'
  unfold reactParse
  rw [hsplit]
  constructor
  · intro hany
    rw [if_pos hany]
  · intro hany
    rw [if_neg (by simp [hany])]

/-- **C8, witness.**  A message with an `Action:` line followed by a
`Final Answer:` line yields no invocation; one with two `Action:` lines and
no `Final Answer:` yields the last action. -/
theorem c8_witness :
    reactParse (joinLines ["Action: t[1]", "Final Answer: done"]) = none ∧
    reactParse (joinLines ["Action: a[1]", "Action: b[2]"])
      = (["Action: a[1]", "Action: b[2]"].filterMap reactActionMatch).getLast? :=
  ⟨(c8_react_final_answer_wins ["Action: t[1]", "Final Answer: done"]
      (by decide) (by decide) (by decide)).1 (by decide),
   (c8_react_final_answer_wins ["Action: a[1]", "Action: b[2]"]
      (by decide) (by decide) (by decide)).2 (by decide)⟩

/-- **C9 (confirmed).**  `start_chat` with provider `"ollama"` dispatches to
`_start_ollama_chat_with_tools`; no provider dispatches to the
bracket-grammar loop `_start_ollama_chat` (it is unreachable from
`start_chat`); and every `_start_ollama_chat_with_tools` iteration ends in
the unconditional `assert False` after the first model response, whatever
the history, operator input and response. -/
theorem c9_ollama_assert_false :
    startChatDispatch "ollama" = .ok .ollamaWithTools ∧
    (∀ provider : String, startChatDispatch provider ≠ .ok .ollamaBracket) ∧
    (∀ (msgs : List Message) (userInput response : String),
      ollamaWithToolsTurn msgs userInput response = .error .assertionError) := by
  refine ⟨rfl, ?_, fun _ _ _ => rfl⟩
  intro p
  unfold startChatDispatch
  by_cases h1 : p = "ollama"
  · rw [if_pos h1]
    simp
  · rw [if_neg h1]
    by_cases h2 : p = "anthropic"
    · rw [if_pos h2]
      simp
    · rw [if_neg h2]
      simp

/-- **C9, witness.**  The unreachability at provider `"custom"` and the
failing assert on a concrete first turn. -/
theorem c9_witness :
    startChatDispatch "custom" ≠ .ok .ollamaBracket ∧
    ollamaWithToolsTurn [] "hi" "resp" = .error .assertionError :=
  ⟨c9_ollama_assert_false.2.1 "custom",
   c9_ollama_assert_false.2.2 [] "hi" "resp"⟩

/-- **C10 (confirmed).**  If the child process writes nothing at all, the
captured output splits into no lines, `lines[-1]` raises `IndexError` (for
every exit status), not the `ValueError("No JSON object found in output")`;
conversely that `ValueError` is only reached when at least one line of
output was captured. -/
theorem c10_empty_output_index_error :
    (∀ e : Int, toolRunCommand ⟨e, ""⟩ = .error .indexError) ∧
    (∀ out : String,
      runCommandExtract out = .error (.valueError "No JSON object found in output") →
      splitLinesPy out ≠ []) := by
  refine ⟨fun _ => rfl, fun out h hnil => ?_⟩
  simp only [runCommandExtract] at h
  rw [hnil] at h
  have h2 : PyExc.indexError = PyExc.valueError "No JSON object found in output" := by
    injection h
  exact PyExc.noConfusion h2

/-- **C10, witness.**  Output `x` fails extraction with the `ValueError`,
and indeed it splits into a non-empty line list. -/
theorem c10_witness : splitLinesPy "x" ≠ [] :=
  c10_empty_output_index_error.2 "x" rfl

end Orchestria
